import Mathlib

/-!
Verification of the chunking-and-aggregation analysis pipeline of the
gemini-claude-code-mcp repository.

Python strings are modelled as lists of characters (`Str`).  The external
token counter (tiktoken in the source) is modelled as an arbitrary function
`ct : Str → Nat`, the external remote-inference client as an oracle
`Str → Option Str` (prompt to optional response text), and wall-clock time
as integers.  Every definition below is a direct transcription of the
corresponding Python function in the repository source.
-/

/-- Python `str`, modelled as a list of characters. -/
abbrev Str := List Char

/-- Coerce a Lean string literal to the `Str` model. -/
def strOf (s : String) : Str := s.toList

/-- Python `content.split('\n')`: split on every newline; always returns at
least one (possibly empty) line. -/
def splitLines : Str → List Str
  | [] => [[]]
  | c :: rest =>
    if c = '\n' then [] :: splitLines rest
    else
      match splitLines rest with
      | [] => [[c]]
      | h :: t => (c :: h) :: t

/-- Python `'\n'.join(lines)`. -/
def joinN (ls : List Str) : Str := List.intercalate ['\n'] ls

/-- Python slice `l[a:b]`. -/
def pySlice (l : List α) (a b : Nat) : List α := (l.drop a).take (b - a)

/-- Sum of per-line token counts `count_tokens(line + '\n')`, the running
measure accumulated by the chunking loops. -/
def sumTok (ct : Str → Nat) (ls : List Str) : Nat :=
  (ls.map (fun l => ct (l ++ ['\n']))).sum

/-! ## Regular-expression engine

`find_code_boundaries` matches a fixed table of Python regular expressions
(compiled with `re.MULTILINE`) against the content.  The engine below is a
fuel-bounded backtracking matcher with Python's preference order: alternation
tries the left branch first, `*` is greedy, `*?` is lazy, `?` is greedy.
The `^` anchor of every pattern in the table is handled by the scanner
(`finditerStarts`), which attempts matches only at line starts, exactly as
`re.finditer` does for multiline `^`-anchored patterns. -/

inductive Regex where
  | eps
  | cls (f : Char → Bool)
  | seq (a b : Regex)
  | alt (a b : Regex)
  | starG (a : Regex)
  | starL (a : Regex)
  | opt (a : Regex)

/-- Literal character sequence. -/
def rlit (s : String) : Regex :=
  s.toList.foldr (fun c r => Regex.seq (Regex.cls (fun d => d = c)) r) Regex.eps

/-- Python `\s` (ASCII whitespace; the source is matched on ASCII text). -/
def isSpaceCh (c : Char) : Bool :=
  c = ' ' || c = '\t' || c = '\n' || c = '\r' || c = '\x0b' || c = '\x0c'

/-- Python `\w` (word characters; ASCII approximation of the source's use). -/
def isWordCh (c : Char) : Bool := c.isAlphanum || c = '_'

/-- Pattern `\s+`. -/
def wsPlus : Regex := .seq (.cls isSpaceCh) (.starG (.cls isSpaceCh))

/-- Pattern `\s*`. -/
def wsStar : Regex := .starG (.cls isSpaceCh)

/-- Pattern `\w+`. -/
def wordPlus : Regex := .seq (.cls isWordCh) (.starG (.cls isWordCh))

/-- Pattern `.` (any character except newline). -/
def anyCh : Regex := .cls (fun c => c ≠ '\n')

/-- Pattern `.*?` (lazy). -/
def dotStarLazy : Regex := .starL anyCh

/-- Sequence of several regexes. -/
def rseq (rs : List Regex) : Regex := rs.foldr Regex.seq Regex.eps

/-- Backtracking matcher in continuation-passing style.  The continuation
receives the remaining suffix; the first success in Python's preference
order wins.  Fuel bounds the recursion depth and is chosen large enough at
every call site that it is never exhausted. -/
def rrun : Nat → Regex → Str → (Str → Option Str) → Option Str
  | 0, _, _, _ => none
  | _ + 1, .eps, s, k => k s
  | _ + 1, .cls _, [], _ => none
  | _ + 1, .cls f, c :: s, k => if f c then k s else none
  | fuel + 1, .seq a b, s, k => rrun fuel a s (fun s1 => rrun fuel b s1 k)
  | fuel + 1, .alt a b, s, k =>
    (rrun fuel a s k).orElse (fun _ => rrun fuel b s k)
  | fuel + 1, .starG a, s, k =>
    (rrun fuel a s (fun s1 =>
      if s1.length < s.length then rrun fuel (.starG a) s1 k else none)).orElse
      (fun _ => k s)
  | fuel + 1, .starL a, s, k =>
    (k s).orElse (fun _ =>
      rrun fuel a s (fun s1 =>
        if s1.length < s.length then rrun fuel (.starL a) s1 k else none))
  | fuel + 1, .opt a, s, k => (rrun fuel a s k).orElse (fun _ => k s)

/-- Number of characters consumed by the preferred match of `r` at the head
of `s`, if any. -/
def rmatch (r : Regex) (s : Str) : Option Nat :=
  (rrun (1024 * (s.length + 2)) r s some).map (fun rem => s.length - rem.length)

/-- Scanner for `re.finditer` with a `^`-anchored multiline pattern: attempt
a match at every line start, record the match start offset, and resume
scanning at the match end (non-overlapping matches). -/
def finditerStarts (r : Regex) : Nat → Str → Nat → Bool → List Nat
  | 0, _, _, _ => []
  | fuel + 1, s, pos, bol =>
    if bol then
      match rmatch r s with
      | some consumed =>
        if consumed = 0 then
          match s with
          | [] => [pos]
          | c :: rest => pos :: finditerStarts r fuel rest (pos + 1) (c = '\n')
        else
          pos :: finditerStarts r fuel (s.drop consumed) (pos + consumed)
            ((s.take consumed).getLast? = some '\n')
      | none =>
        match s with
        | [] => []
        | c :: rest => finditerStarts r fuel rest (pos + 1) (c = '\n')
    else
      match s with
      | [] => []
      | c :: rest => finditerStarts r fuel rest (pos + 1) (c = '\n')

/-- All match start offsets of pattern `r` in `content`. -/
def patternMatchesIn (r : Regex) (content : Str) : List Nat :=
  finditerStarts r (content.length + 2) content 0 true

/-! ## `find_code_boundaries` (utils/chunking.py) -/

/-- The `'python'` entry of the pattern table. -/
def pythonPatterns : List Regex :=
  [ rseq [rlit "class", wsPlus, wordPlus, dotStarLazy, rlit ":"],
    rseq [rlit "def", wsPlus, wordPlus, dotStarLazy, rlit ":"],
    rseq [rlit "async", wsPlus, rlit "def", wsPlus, wordPlus, dotStarLazy, rlit ":"] ]

/-- The `'javascript'` entry of the pattern table. -/
def javascriptPatterns : List Regex :=
  [ rseq [rlit "function", wsPlus, wordPlus, wsStar, rlit "("],
    rseq [rlit "const", wsPlus, wordPlus, wsStar, rlit "=", wsStar,
          .opt (rseq [rlit "async", wsStar]), rlit "(", dotStarLazy, rlit ")",
          wsStar, rlit "=>"],
    rseq [rlit "class", wsPlus, wordPlus],
    rseq [rlit "export", wsPlus, .opt (rseq [rlit "default", wsPlus]),
          .alt (rlit "function") (.alt (rlit "class") (rlit "const"))] ]

/-- The `'typescript'` entry of the pattern table. -/
def typescriptPatterns : List Regex :=
  [ rseq [rlit "function", wsPlus, wordPlus, wsStar, rlit "("],
    rseq [rlit "const", wsPlus, wordPlus, wsStar, rlit "=", wsStar,
          .opt (rseq [rlit "async", wsStar]), rlit "(", dotStarLazy, rlit ")",
          wsStar, rlit "=>"],
    rseq [rlit "class", wsPlus, wordPlus],
    rseq [rlit "export", wsPlus, .opt (rseq [rlit "default", wsPlus]),
          .alt (rlit "function") (.alt (rlit "class")
            (.alt (rlit "const") (.alt (rlit "interface") (rlit "type"))))],
    rseq [rlit "interface", wsPlus, wordPlus],
    rseq [rlit "type", wsPlus, wordPlus] ]

/-- The `'java'` entry of the pattern table. -/
def javaPatterns : List Regex :=
  [ rseq [.opt (.alt (rlit "public") (.alt (rlit "private") (rlit "protected"))),
          wsStar, rlit "class", wsPlus, wordPlus],
    rseq [.opt (.alt (rlit "public") (.alt (rlit "private") (rlit "protected"))),
          wsStar, .opt (rseq [rlit "static", wsPlus]),
          .opt (rseq [rlit "final", wsPlus]),
          wordPlus, wsPlus, wordPlus, wsStar, rlit "("] ]

/-- The `'cpp'` entry of the pattern table. -/
def cppPatterns : List Regex :=
  [ rseq [rlit "class", wsPlus, wordPlus],
    rseq [rlit "struct", wsPlus, wordPlus],
    rseq [wordPlus, .starG (rseq [wsPlus, wordPlus]), wsPlus, wordPlus,
          wsStar, rlit "("] ]

/-- Python `str.lower()` (ASCII approximation). -/
def strLower (s : Str) : Str := s.map Char.toLower

/-- The pattern dictionary `patterns` of `find_code_boundaries`:
`patterns.get(language.lower())`. -/
def patternsFor (lang : Str) : Option (List Regex) :=
  if lang = strOf "python" then some pythonPatterns
  else if lang = strOf "javascript" then some javascriptPatterns
  else if lang = strOf "typescript" then some typescriptPatterns
  else if lang = strOf "java" then some javaPatterns
  else if lang = strOf "cpp" then some cppPatterns
  else none

/-- Stable insertion into an ascending-by-first-component list. -/
def insSortedFst (x : Nat × Nat) : List (Nat × Nat) → List (Nat × Nat)
  | [] => [x]
  | y :: ys => if y.1 < x.1 then y :: insSortedFst x ys else x :: y :: ys

/-- Stable sort by first component, modelling `boundaries.sort(key=x[0])`. -/
def sortByFst (l : List (Nat × Nat)) : List (Nat × Nat) :=
  l.foldr insSortedFst []

/-- Function `find_code_boundaries(content, language)`: returns `(line_num, offset)`
pairs for every match of every pattern of the language's table, sorted by line
number; unrecognized languages fall back to the `'python'` patterns. -/
def find_code_boundaries (content language : Str) : List (Nat × Nat) :=
  let lang_patterns := (patternsFor (strLower language)).getD pythonPatterns
  let boundaries := lang_patterns.flatMap (fun r =>
    (patternMatchesIn r content).map (fun q => ((content.take q).count '\n', q)))
  sortByFst boundaries

/-! ## `get_language_from_extension` (utils/chunking.py) -/

/-- The `ext_to_lang` table, in the source's insertion order. -/
def extToLang : List (Str × Str) :=
  [ (strOf ".py", strOf "python"), (strOf ".js", strOf "javascript"),
    (strOf ".ts", strOf "typescript"), (strOf ".jsx", strOf "javascript"),
    (strOf ".tsx", strOf "typescript"), (strOf ".java", strOf "java"),
    (strOf ".cpp", strOf "cpp"), (strOf ".c", strOf "cpp"),
    (strOf ".h", strOf "cpp"), (strOf ".hpp", strOf "cpp"),
    (strOf ".cs", strOf "csharp"), (strOf ".go", strOf "go"),
    (strOf ".rs", strOf "rust"), (strOf ".rb", strOf "ruby"),
    (strOf ".php", strOf "php"), (strOf ".swift", strOf "swift"),
    (strOf ".kt", strOf "kotlin"), (strOf ".scala", strOf "scala"),
    (strOf ".r", strOf "r"), (strOf ".m", strOf "objc"),
    (strOf ".mm", strOf "objc") ]

/-- Function `get_language_from_extension(filename)`. -/
def get_language_from_extension (filename : Str) : Str :=
  ((extToLang.find? (fun p => p.1.isSuffixOf filename)).map (fun p => p.2)).getD
    (strOf "text")


/-! ## `smart_chunk_content` (utils/chunking.py)

A chunk is `(chunk_text, start_line, end_line)`. -/

abbrev Chunk := Str × Nat × Nat

/-- The inner boundary search of `smart_chunk_content`: iterate the sorted
boundary list in order, overwriting `best_boundary` (seeded with the current
line index `i`) with every boundary `b` satisfying
`current_chunk_start < b ≤ i` whose candidate chunk
`'\n'.join(lines[current_chunk_start:b])` fits the budget. -/
def bestBoundary (ct : Str → Nat) (B : Nat) (lines : List Str)
    (boundaries : List (Nat × Nat)) (cstart i : Nat) : Nat :=
  boundaries.foldl
    (fun best bl =>
      if cstart < bl.1 ∧ bl.1 ≤ i ∧ ct (joinN (pySlice lines cstart bl.1)) ≤ B
      then bl.1 else best) i

/-- The main loop of `smart_chunk_content`, one step per source line.
State: remaining lines, current index `i`, `current_chunk_start`,
`current_chunk_lines`, `current_tokens`.  Nat subtraction models Python's
`max(0, chunk_end - overlap_size // (line_tokens or 1))`. -/
def chunkLoop (ct : Str → Nat) (B osize : Nat) (boundaries : List (Nat × Nat))
    (lines : List Str) :
    List Str → Nat → Nat → List Str → Nat → List Chunk
  | [], _, cstart, cls, _ =>
    if cls = [] then [] else [(joinN cls, cstart, lines.length - 1)]
  | line :: rest, i, cstart, cls, ctoks =>
    let lt := ct (line ++ ['\n'])
    if ctoks + lt > B ∧ cls ≠ [] then
      let best := bestBoundary ct B lines boundaries cstart i
      let ce := best - 1
      let text := joinN (cls.take (ce - cstart + 1))
      let lt1 := if lt = 0 then 1 else lt
      let ostart := ce - osize / lt1
      let ncls := pySlice lines ostart (i + 1)
      (text, cstart, ce) ::
        chunkLoop ct B osize boundaries lines rest (i + 1) ostart ncls
          (ct (joinN ncls))
    else
      chunkLoop ct B osize boundaries lines rest (i + 1) cstart (cls ++ [line])
        (ctoks + lt)

/-- Function `smart_chunk_content(content, filename, chunk_size, overlap_size)`. -/
def smart_chunk_content (ct : Str → Nat) (content filename : Str)
    (chunk_size overlap_size : Nat) : List Chunk :=
  if ct content ≤ chunk_size then
    [(content, 0, (splitLines content).length - 1)]
  else
    let language := get_language_from_extension filename
    let boundaries := find_code_boundaries content language
    let lines := splitLines content
    chunkLoop ct chunk_size overlap_size boundaries lines lines 0 0 [] 0

/-! ## `LargeContextAnalyzer._simple_chunk_by_size` -/

/-- The loop of `_simple_chunk_by_size`: accumulate lines until adding the
next one would exceed the limit, then cut with no overlap. -/
def simpleLoop (ct : Str → Nat) (limit n : Nat) :
    List Str → Nat → Nat → List Str → Nat → List Chunk
  | [], _, sstart, cur, _ =>
    if cur = [] then [] else [(joinN cur, sstart, n - 1)]
  | line :: rest, i, sstart, cur, ctoks =>
    let lt := ct (line ++ ['\n'])
    if ctoks + lt > limit ∧ cur ≠ [] then
      (joinN cur, sstart, i - 1) :: simpleLoop ct limit n rest (i + 1) i [line] lt
    else
      simpleLoop ct limit n rest (i + 1) sstart (cur ++ [line]) (ctoks + lt)

/-- Method `_simple_chunk_by_size(content)` with `chunk_limit = gemini_limit - 1000`. -/
def simple_chunk_by_size (ct : Str → Nat) (gemini_limit : Nat) (content : Str) :
    List Chunk :=
  let lines := splitLines content
  simpleLoop ct (gemini_limit - 1000) lines.length lines 0 0 [] 0


/-! ## Data model (models/context.py) -/

/-- The `ChunkingStrategy` enum. -/
inductive ChunkingStrategy where
  | simple
  | code_aware
  | semantic
deriving DecidableEq, Repr

/-- The `.value` string of a `ChunkingStrategy`. -/
def strategyValue : ChunkingStrategy → Str
  | .simple => strOf "simple"
  | .code_aware => strOf "code_aware"
  | .semantic => strOf "semantic"

/-- Model of `AnalysisRequest`; `context_metadata` is modelled as an association list
of string keys and values. -/
structure AnalysisRequest where
  query : Str
  content : Str
  chunking_strategy : ChunkingStrategy
  context_metadata : List (Str × Str)
deriving DecidableEq, Repr

/-- Model of `AnalysisResult` (the constant-empty `metadata` field is omitted). -/
structure AnalysisResult where
  query : Str
  content : Str
  total_tokens : Nat
  chunks_processed : Nat
  used_gemini : Bool
  response : Option Str
deriving DecidableEq, Repr

/-! ## `LargeContextAnalyzer` (services/large_context_analyzer.py) -/

/-- The data hashed by `_generate_cache_key`: the query, the content (the
source hashes `sha256(content)`; the hash is modelled as the injective
identity fingerprint on the hashed data) and the strategy value. -/
abbrev CacheKey := Str × Str × Str

/-- Method `_generate_cache_key(request)`. -/
def generate_cache_key (req : AnalysisRequest) : CacheKey :=
  (req.query, req.content, strategyValue req.chunking_strategy)

/-- The in-memory result cache, newest entry first (an insertion with an
existing key shadows the old entry, as assignment does for `TTLCache`). -/
abbrev Cache := List (CacheKey × AnalysisResult)

/-- Combined `key in self.cache` check and `self.cache[key]` lookup. -/
def cacheLookup (c : Cache) (k : CacheKey) : Option AnalysisResult :=
  (c.find? (fun p => p.1 = k)).map (fun p => p.2)

/-- Assignment `self.cache[cache_key] = result`. -/
def cacheInsert (c : Cache) (k : CacheKey) (v : AnalysisResult) : Cache :=
  (k, v) :: c

/-- Lookup `request.context_metadata.get(key, default)`. -/
def metaGet (m : List (Str × Str)) (k d : Str) : Str :=
  ((m.find? (fun p => p.1 = k)).map (fun p => p.2)).getD d

/-- Method `needs_large_context_processing(content)`. -/
def needs_large_context_processing (ct : Str → Nat) (claude_limit : Nat)
    (content : Str) : Bool :=
  ct content > claude_limit

/-- Decimal rendering of a number interpolated into an f-string. -/
def natStr (n : Nat) : Str := Nat.toDigits 10 n

/-- The single-chunk prompt of `_process_chunks_with_gemini`. -/
def singleChunkPrompt (query text : Str) : Str :=
  strOf "Analyze the following code/content and answer this query: " ++ query ++
  strOf "\n\nContent:\n" ++ text ++
  strOf "\n\nProvide a comprehensive answer based on the content above."

/-- The per-chunk prompt of the multi-chunk path. -/
def multiChunkPrompt (i total : Nat) (query : Str) (c : Chunk) : Str :=
  strOf "You are analyzing part " ++ natStr (i + 1) ++ strOf " of " ++
  natStr total ++ strOf " of a larger codebase.\nQuery: " ++ query ++
  strOf "\n\nContent (lines " ++ natStr c.2.1 ++ strOf "-" ++ natStr c.2.2 ++
  strOf "):\n" ++ c.1 ++
  strOf "\n\nAnalyze this section and provide findings relevant to the query.\nNote any references to other parts that might be in other chunks."

/-- Label of an aggregated finding: the text Part, the one-based part number
and a colon. -/
def partLabel (n : Nat) : Str := strOf "Part " ++ natStr n ++ strOf ": "

/-- The findings aggregation: join the labeled successful responses with
blank lines, enumerating BEFORE filtering, so failed chunks are dropped but
part numbers keep the original chunk index. -/
def findingsOf (responses : List (Option Str)) : Str :=
  List.intercalate (strOf "\n\n")
    (responses.enum.filterMap (fun p => p.2.map (fun t => partLabel (p.1 + 1) ++ t)))

/-- The synthesis prompt of the multi-chunk path. -/
def aggregationPrompt (total : Nat) (query findings : Str) : Str :=
  strOf "You analyzed a large codebase in " ++ natStr total ++
  strOf " parts for this query: " ++ query ++
  strOf "\n\nHere are the findings from each part:\n\n" ++ findings ++
  strOf "\n\nSynthesize these findings into a comprehensive answer. Resolve any cross-references between parts and provide a cohesive response."

/-- The per-chunk prompts issued by the multi-chunk path, in chunk order. -/
def chunkPrompts (chunks : List Chunk) (query : Str) : List Str :=
  chunks.enum.map (fun p => multiChunkPrompt p.1 chunks.length query p.2)

/-- Method `_process_chunks_with_gemini(chunks, query)`.  Returns the aggregated
response text together with the list of prompts sent to the inference
gateway, in order (the call log). -/
def process_chunks_with_gemini (oracle : Str → Option Str) (chunks : List Chunk)
    (query : Str) : Str × List Str :=
  match chunks with
  | [] => (strOf "No content to analyze", [])
  | [c] =>
    let p := singleChunkPrompt query c.1
    ((oracle p).getD (strOf "No response from Gemini"), [p])
  | _ :: _ :: _ =>
    let prompts := chunkPrompts chunks query
    let responses := prompts.map oracle
    let agg := aggregationPrompt chunks.length query (findingsOf responses)
    ((oracle agg).getD (strOf "No response from Gemini"), prompts ++ [agg])

/-- Default of `settings.processing.overlap`. -/
def overlapDefault : Nat := 1000

/-- The chunk list chosen by `analyze` on the large-content path:
code-aware requests go through `smart_chunk_content` with
`chunk_size = gemini_limit - 1000` and the filename from the request
metadata; other strategies use `_simple_chunk_by_size`. -/
def analysis_chunks (ct : Str → Nat) (gemini_limit : Nat)
    (req : AnalysisRequest) : List Chunk :=
  if req.chunking_strategy = .code_aware then
    smart_chunk_content ct req.content
      (metaGet req.context_metadata (strOf "filename") (strOf "content.txt"))
      (gemini_limit - 1000) overlapDefault
  else
    simple_chunk_by_size ct gemini_limit req.content

/-- Method `LargeContextAnalyzer.analyze(request)`.  Returns the result, the new
cache, and the list of prompts issued to the inference gateway. -/
def analyze (oracle : Str → Option Str) (ct : Str → Nat)
    (claude_limit gemini_limit : Nat) (cache : Cache) (req : AnalysisRequest) :
    AnalysisResult × Cache × List Str :=
  let key := generate_cache_key req
  match cacheLookup cache key with
  | some r => (r, cache, [])
  | none =>
    let total := ct req.content
    if needs_large_context_processing ct claude_limit req.content then
      let chunks := analysis_chunks ct gemini_limit req
      let pr := process_chunks_with_gemini oracle chunks req.query
      let r : AnalysisResult :=
        ⟨req.query, req.content, total, chunks.length, true, some pr.1⟩
      (r, cacheInsert cache key r, pr.2)
    else
      let r : AnalysisResult := ⟨req.query, req.content, total, 0, false, none⟩
      (r, cacheInsert cache key r, [])

/-! ## `gemini_text_to_text` retry loop (services/gemini.py)

One call attempt is abstracted as an outcome: a successful response (whose
optional text is `response.text`), a `ServerError` (with its rate-limit
flag), a `ClientError`, or an unexpected exception.  Backoff sleeps do not
affect the returned value and are not modelled. -/

inductive GenOutcome where
  | success (text : Option Str)
  | serverError (isRateLimit : Bool)
  | clientError (code : Nat)
  | unexpectedError
deriving DecidableEq

/-- Whether an outcome is handled by a retrying `except` branch. -/
def isTransient : GenOutcome → Bool
  | .serverError _ => true
  | .unexpectedError => true
  | _ => false

/-- The `for attempt in range(max_retries)` loop of `gemini_text_to_text`:
`remaining` attempts left, `attempt` the current attempt index.  Returns the
call result (`Except` models a propagated `ClientError`) and the number of
attempts made. -/
def geminiRetryLoop (att : Nat → GenOutcome) :
    Nat → Nat → Except Nat (Option Str) × Nat
  | 0, attempt => (.ok none, attempt)
  | remaining + 1, attempt =>
    match att attempt with
    | .success t => (.ok t, attempt + 1)
    | .clientError e => (.error e, attempt + 1)
    | .serverError _ => geminiRetryLoop att remaining (attempt + 1)
    | .unexpectedError => geminiRetryLoop att remaining (attempt + 1)

/-- Function `gemini_text_to_text(prompt, ..., max_retries)` (default `max_retries=3`):
the retry loop from attempt 0; on exhausting retries it returns `None`
(`.ok none`) instead of raising. -/
def gemini_text_to_text (att : Nat → GenOutcome) (max_retries : Nat) :
    Except Nat (Option Str) × Nat :=
  geminiRetryLoop att max_retries 0

/-! ## `check_rate_limit` (services/gemini.py)

Wall-clock times are integers.  A trace is driven by the list of times at
which callers reach the limiter; the lock serializes callers, so a caller
arriving before the previous call finished its bookkeeping (including the
blocking sleep, which the source performs while holding the lock) acquires
the lock only when the previous call released it. -/

structure RLState where
  request_count : Nat
  window_start : Int
deriving DecidableEq, Repr

/-- One pass through `check_rate_limit`, entered at time `ta` (the lock
acquisition time).  Returns the new state and the time at which the call
proceeds (after any blocking sleep; `asyncio.sleep` of a non-positive
duration returns immediately).  The sleep path re-reads the stale
`request_count` captured before sleeping, so the counter becomes
`request_count + 1` there, exactly as in the source. -/
def check_rate_limit (W : Int) (limit : Nat) (s : RLState) (ta : Int) :
    RLState × Int :=
  let elapsed := ta - s.window_start
  let reset := elapsed ≥ W
  let count := if reset then 0 else s.request_count
  let ws := if reset then ta else s.window_start
  if count ≥ limit then
    let wake := ta + max (W - elapsed) 0
    (⟨count + 1, wake⟩, wake)
  else
    (⟨count + 1, ws⟩, ta)

/-- Run a sequence of limiter passes.  `lockFree` is the time at which the
lock becomes available; each caller acquires it at
`max (its arrival time) lockFree`.  Returns the times at which the guarded
inference calls are initiated. -/
def rlTrace (W : Int) (limit : Nat) : RLState → Int → List Int → List Int
  | _, _, [] => []
  | s, lockFree, t :: ts =>
    let ta := max t lockFree
    let p := check_rate_limit W limit s ta
    p.2 :: rlTrace W limit p.1 p.2 ts

/-- Number of initiation times falling in the half-open sliding window
`[a, a + W)`. -/
def countWindow (W a : Int) (inits : List Int) : Nat :=
  (inits.filter (fun t => decide (a ≤ t ∧ t < a + W))).length


/-! ## Helper lemmas -/

theorem splitLines_ne_nil (s : Str) : splitLines s ≠ [] := by
  induction s with
  | nil => simp [splitLines]
  | cons c rest ih =>
    simp only [splitLines]
    split
    · simp
    · cases h : splitLines rest with
      | nil => simp
      | cons a t => simp

theorem pySlice_zero (l : List α) (a : Nat) : pySlice l a a = [] := by
  simp [pySlice]

theorem pySlice_ne_nil_of {l : List α} {a b : Nat} (h1 : a < b)
    (h2 : a < l.length) : pySlice l a b ≠ [] := by
  simp only [pySlice, ne_eq, List.take_eq_nil_iff, List.drop_eq_nil_iff]
  omega

theorem pySlice_bounds_of_ne_nil {l : List α} {a b : Nat}
    (h : pySlice l a b ≠ []) : a < b ∧ a < l.length := by
  simp only [pySlice, ne_eq, List.take_eq_nil_iff, List.drop_eq_nil_iff] at h
  omega

theorem pySlice_snoc {l : List α} {a i : Nat} {x : α} {rest : List α}
    (hd : l.drop i = x :: rest) (hai : a ≤ i) :
    pySlice l a i ++ [x] = pySlice l a (i + 1) := by
  have h1 : i + 1 - a = (i - a) + 1 := by omega
  have h2 : (l.drop a)[i - a]? = some x := by
    rw [List.getElem?_drop, Nat.add_sub_cancel' hai, ← List.head?_drop, hd]
    simp
  simp [pySlice, h1, List.take_succ, h2]

theorem pySlice_length (l : List α) (a b : Nat) :
    (pySlice l a b).length = min (b - a) (l.length - a) := by
  simp [pySlice]

theorem pySlice_head {l : List α} {a b : Nat} {x : α} {xs : List α}
    (h : pySlice l a b = x :: xs) : l[a]? = some x := by
  have hne : pySlice l a b ≠ [] := by rw [h]; simp
  obtain ⟨h1, h2⟩ := pySlice_bounds_of_ne_nil hne
  have h0 : (pySlice l a b)[0]? = some x := by rw [h]; simp
  unfold pySlice at h0
  rw [List.getElem?_take_of_lt (by omega), List.getElem?_drop] at h0
  simpa using h0

theorem pySlice_take {l : List α} (a b c : Nat) (h : c ≤ b) :
    (pySlice l a b).take (c - a) = pySlice l a c := by
  simp only [pySlice, List.take_take]
  congr 1
  omega

theorem sumTok_append (ct : Str → Nat) (a : List Str) (x : Str) :
    sumTok ct (a ++ [x]) = sumTok ct a + ct (x ++ ['\n']) := by
  simp [sumTok]

theorem sumTok_take_le (ct : Str → Nat) (l : List Str) (k : Nat) :
    sumTok ct (l.take k) ≤ sumTok ct l := by
  conv_rhs => rw [← List.take_append_drop k l]
  simp only [sumTok, List.map_append, List.sum_append]
  exact Nat.le_add_right _ _

theorem bestBoundary_fold (ct : Str → Nat) (B : Nat) (lines : List Str)
    (cstart i : Nat) :
    ∀ (bs : List (Nat × Nat)) (acc : Nat), cstart < acc → acc ≤ i →
      cstart < bs.foldl
        (fun best bl =>
          if cstart < bl.1 ∧ bl.1 ≤ i ∧
              ct (joinN (pySlice lines cstart bl.1)) ≤ B
          then bl.1 else best) acc ∧
      bs.foldl
        (fun best bl =>
          if cstart < bl.1 ∧ bl.1 ≤ i ∧
              ct (joinN (pySlice lines cstart bl.1)) ≤ B
          then bl.1 else best) acc ≤ i
  | [], acc, h1, h2 => ⟨h1, h2⟩
  | bl :: bs, acc, h1, h2 => by
    simp only [List.foldl_cons]
    by_cases hc : cstart < bl.1 ∧ bl.1 ≤ i ∧
        ct (joinN (pySlice lines cstart bl.1)) ≤ B
    · rw [if_pos hc]
      exact bestBoundary_fold ct B lines cstart i bs bl.1 hc.1 hc.2.1
    · rw [if_neg hc]
      exact bestBoundary_fold ct B lines cstart i bs acc h1 h2

/-- The boundary-search result stays strictly above `cstart` and at or below
the current line `i` when the current accumulation is nonempty. -/
theorem bestBoundary_bounds (ct : Str → Nat) (B : Nat) (lines : List Str)
    (boundaries : List (Nat × Nat)) (cstart i : Nat) (h : cstart < i) :
    cstart < bestBoundary ct B lines boundaries cstart i ∧
      bestBoundary ct B lines boundaries cstart i ≤ i :=
  bestBoundary_fold ct B lines cstart i boundaries i h (le_refl i)

/-! ## Claim C1: chunk ranges and line coverage of `smart_chunk_content` -/

/-- Every chunk emitted by the main loop has `start_line ≤ end_line` and ends
within the document, whatever the token counter and the boundary list. -/
theorem chunkLoop_range (ct : Str → Nat) (B osize : Nat)
    (boundaries : List (Nat × Nat)) (lines : List Str) :
    ∀ (rem : List Str) (i cstart : Nat) (cls : List Str) (ctoks : Nat),
      rem = lines.drop i → cls = pySlice lines cstart i → i ≤ lines.length →
      cstart ≤ i →
      ∀ c ∈ chunkLoop ct B osize boundaries lines rem i cstart cls ctoks,
        c.2.1 ≤ c.2.2 ∧ c.2.2 ≤ lines.length - 1 := by
  intro rem
  induction rem with
  | nil =>
    intro i cstart cls ctoks hrem hcls hi hci c hc
    subst hcls
    simp only [chunkLoop] at hc
    split at hc
    · simp at hc
    · next hne =>
      have hb := pySlice_bounds_of_ne_nil hne
      simp only [List.mem_singleton] at hc
      subst hc
      simp only
      omega
  | cons line rest ih =>
    intro i cstart cls ctoks hrem hcls hi hci c hc
    subst hcls
    have hlt : i < lines.length := by
      by_contra hcon
      have hdm : lines.drop i = [] := List.drop_eq_nil_iff.mpr (by omega)
      rw [hdm] at hrem
      cases hrem
    have hrest : rest = lines.drop (i + 1) := by
      have ht : (lines.drop i).tail = lines.drop (i + 1) := List.tail_drop lines i
      rw [← hrem] at ht
      exact ht
    simp only [chunkLoop] at hc
    split at hc
    · next hcond =>
      have hcs : cstart < i := (pySlice_bounds_of_ne_nil hcond.2).1
      obtain ⟨hb1, hb2⟩ :=
        bestBoundary_bounds ct B lines boundaries cstart i hcs
      have host := Nat.sub_le (bestBoundary ct B lines boundaries cstart i - 1)
        (osize / (if ct (line ++ ['\n']) = 0 then 1 else ct (line ++ ['\n'])))
      rw [List.mem_cons] at hc
      rcases hc with hc | hc
      · subst hc
        simp only
        omega
      · refine ih (i + 1) _ _ _ hrest rfl ?_ ?_ c hc
        · omega
        · omega
    · exact ih (i + 1) cstart (pySlice lines cstart i ++ [line]) _ hrest
        (pySlice_snoc hrem.symm hci) (by omega) (by omega) c hc

/-- Every line index of the document is covered by some emitted chunk. -/
theorem chunkLoop_cover (ct : Str → Nat) (B osize : Nat)
    (boundaries : List (Nat × Nat)) (lines : List Str) :
    ∀ (rem : List Str) (i cstart : Nat) (cls : List Str) (ctoks : Nat),
      rem = lines.drop i → cls = pySlice lines cstart i → i ≤ lines.length →
      cstart ≤ i → (cstart < i ∨ i < lines.length) →
      ∀ j, cstart ≤ j → j ≤ lines.length - 1 →
        ∃ c ∈ chunkLoop ct B osize boundaries lines rem i cstart cls ctoks,
          c.2.1 ≤ j ∧ j ≤ c.2.2 := by
  intro rem
  induction rem with
  | nil =>
    intro i cstart cls ctoks hrem hcls hi hci hdisj j hj1 hj2
    subst hcls
    have hin : i = lines.length := by
      have hle : lines.length ≤ i := List.drop_eq_nil_iff.mp hrem.symm
      omega
    have hcsi : cstart < i := by
      rcases hdisj with h | h
      · exact h
      · omega
    have hne : pySlice lines cstart i ≠ [] := pySlice_ne_nil_of hcsi (by omega)
    refine ⟨(joinN (pySlice lines cstart i), cstart, lines.length - 1), ?_, hj1, hj2⟩
    simp [chunkLoop, hne]
  | cons line rest ih =>
    intro i cstart cls ctoks hrem hcls hi hci hdisj j hj1 hj2
    subst hcls
    have hlt : i < lines.length := by
      by_contra hcon
      have hdm : lines.drop i = [] := List.drop_eq_nil_iff.mpr (by omega)
      rw [hdm] at hrem
      cases hrem
    have hrest : rest = lines.drop (i + 1) := by
      have ht : (lines.drop i).tail = lines.drop (i + 1) := List.tail_drop lines i
      rw [← hrem] at ht
      exact ht
    simp only [chunkLoop]
    split
    · next hcond =>
      have hcs : cstart < i := (pySlice_bounds_of_ne_nil hcond.2).1
      obtain ⟨hb1, hb2⟩ :=
        bestBoundary_bounds ct B lines boundaries cstart i hcs
      have host := Nat.sub_le (bestBoundary ct B lines boundaries cstart i - 1)
        (osize / (if ct (line ++ ['\n']) = 0 then 1 else ct (line ++ ['\n'])))
      by_cases hj : j ≤ bestBoundary ct B lines boundaries cstart i - 1
      · exact ⟨_, List.mem_cons_self _ _, hj1, hj⟩
      · obtain ⟨c, hmem, hc1, hc2⟩ := ih (i + 1)
          (bestBoundary ct B lines boundaries cstart i - 1 -
            osize / (if ct (line ++ ['\n']) = 0 then 1 else ct (line ++ ['\n'])))
          (pySlice lines
            (bestBoundary ct B lines boundaries cstart i - 1 -
              osize / (if ct (line ++ ['\n']) = 0 then 1 else ct (line ++ ['\n'])))
            (i + 1)) _ hrest rfl (by omega) (by omega) (by omega) j (by omega) hj2
        exact ⟨c, List.mem_cons_of_mem _ hmem, hc1, hc2⟩
    · exact ih (i + 1) cstart (pySlice lines cstart i ++ [line]) _ hrest
        (pySlice_snoc hrem.symm hci) (by omega) (by omega) (by omega) j hj1 hj2

/-- Claim C1: for every content string, filename, token counter, chunk budget
and overlap budget, every chunk returned by `smart_chunk_content` satisfies
`start_line ≤ end_line` (and ends inside the document), and every line index
of the content is covered by at least one chunk's `[start_line, end_line]`
range. -/
theorem claim_C1_ranges_and_coverage (ct : Str → Nat) (content filename : Str)
    (chunk_size overlap_size : Nat) :
    (∀ c ∈ smart_chunk_content ct content filename chunk_size overlap_size,
        c.2.1 ≤ c.2.2 ∧ c.2.2 ≤ (splitLines content).length - 1) ∧
    (∀ j, j < (splitLines content).length →
        ∃ c ∈ smart_chunk_content ct content filename chunk_size overlap_size,
          c.2.1 ≤ j ∧ j ≤ c.2.2) := by
  have hpos : 0 < (splitLines content).length :=
    List.length_pos.mpr (splitLines_ne_nil content)
  unfold smart_chunk_content
  split
  · constructor
    · intro c hc
      simp only [List.mem_singleton] at hc
      subst hc
      simp only
      omega
    · intro j hj
      refine ⟨(content, 0, (splitLines content).length - 1),
        List.mem_singleton.mpr rfl, ?_, ?_⟩
      · show 0 ≤ j
        omega
      · show j ≤ (splitLines content).length - 1
        omega
  · constructor
    · intro c hc
      exact chunkLoop_range ct chunk_size overlap_size _ (splitLines content)
        (splitLines content) 0 0 [] 0 (by simp) (by simp [pySlice]) (by omega)
        (by omega) c hc
    · intro j hj
      exact chunkLoop_cover ct chunk_size overlap_size _ (splitLines content)
        (splitLines content) 0 0 [] 0 (by simp) (by simp [pySlice]) (by omega)
        (by omega) (Or.inr hpos) j (by omega) (by omega)

/-- Witness for claim C1 at a concrete input: line index 2 of a 4-line
document is covered by some chunk. -/
theorem claim_C1_witness :
    ∃ c ∈ smart_chunk_content List.length (strOf "aaaa\nbbbb\ncccc\ndddd")
        (strOf "x.quux") 10 100, c.2.1 ≤ 2 ∧ 2 ≤ c.2.2 :=
  (claim_C1_ranges_and_coverage List.length (strOf "aaaa\nbbbb\ncccc\ndddd")
    (strOf "x.quux") 10 100).2 2 (by decide)

/-! ## Claim C2: the chunk token budget -/

/-- Budget invariant for the FIRST chunk emitted by the main loop: as long as
the accumulated lines satisfy the sum budget (or are a single over-budget
line), the first emitted chunk either fits the budget in the per-line sum
measure or is a single line whose `count_tokens(line + '\n')` exceeds the
budget. -/
theorem chunkLoop_head_budget (ct : Str → Nat) (B osize : Nat)
    (boundaries : List (Nat × Nat)) (lines : List Str) :
    ∀ (rem : List Str) (i cstart : Nat) (cls : List Str),
      rem = lines.drop i → cls = pySlice lines cstart i → i ≤ lines.length →
      cstart ≤ i →
      (sumTok ct cls ≤ B ∨ ∃ l, cls = [l] ∧ ct (l ++ ['\n']) > B) →
      ∀ t s e,
        (chunkLoop ct B osize boundaries lines rem i cstart cls
            (sumTok ct cls)).head? = some (t, s, e) →
        sumTok ct (pySlice lines s (e + 1)) ≤ B ∨
          (s = e ∧ ∃ l, lines[s]? = some l ∧ ct (l ++ ['\n']) > B) := by
  intro rem
  induction rem with
  | nil =>
    intro i cstart cls hrem hcls hi hci hinv t s e hhead
    subst hcls
    simp only [chunkLoop] at hhead
    split at hhead
    · simp at hhead
    · next hne =>
      have hin : i = lines.length := by
        have hle : lines.length ≤ i := List.drop_eq_nil_iff.mp hrem.symm
        omega
      obtain ⟨hb1, hb2⟩ := pySlice_bounds_of_ne_nil hne
      simp only [List.head?_cons, Option.some_inj, Prod.mk.injEq] at hhead
      obtain ⟨ht, hs, he⟩ := hhead
      rcases hinv with hinv | ⟨l, hl, hlb⟩
      · left
        have he1 : e + 1 = i := by omega
        rw [← hs, he1]
        exact hinv
      · right
        have hlen : (pySlice lines cstart i).length = 1 := by rw [hl]; rfl
        rw [pySlice_length] at hlen
        constructor
        · omega
        · exact ⟨l, by rw [← hs]; exact pySlice_head hl, hlb⟩
  | cons line rest ih =>
    intro i cstart cls hrem hcls hi hci hinv t s e hhead
    subst hcls
    have hlt : i < lines.length := by
      by_contra hcon
      have hdm : lines.drop i = [] := List.drop_eq_nil_iff.mpr (by omega)
      rw [hdm] at hrem
      cases hrem
    have hrest : rest = lines.drop (i + 1) := by
      have ht : (lines.drop i).tail = lines.drop (i + 1) := List.tail_drop lines i
      rw [← hrem] at ht
      exact ht
    simp only [chunkLoop] at hhead
    split at hhead
    · next hcond =>
      have hcs : cstart < i := (pySlice_bounds_of_ne_nil hcond.2).1
      obtain ⟨hb1, hb2⟩ :=
        bestBoundary_bounds ct B lines boundaries cstart i hcs
      simp only [List.head?_cons, Option.some_inj, Prod.mk.injEq] at hhead
      obtain ⟨ht, hs, he⟩ := hhead
      rcases hinv with hinv | ⟨l, hl, hlb⟩
      · left
        have hsl : pySlice lines s (e + 1) =
            (pySlice lines cstart i).take
              (bestBoundary ct B lines boundaries cstart i - 1 + 1 - cstart) := by
          rw [pySlice_take cstart i _ (by omega), ← hs, ← he]
        rw [hsl]
        exact le_trans (sumTok_take_le ct _ _) hinv
      · right
        have hlen : (pySlice lines cstart i).length = 1 := by rw [hl]; rfl
        rw [pySlice_length] at hlen
        constructor
        · omega
        · exact ⟨l, by rw [← hs]; exact pySlice_head hl, hlb⟩
    · next hcond =>
      rw [← sumTok_append ct (pySlice lines cstart i) line] at hhead
      refine ih (i + 1) cstart (pySlice lines cstart i ++ [line]) hrest
        (pySlice_snoc hrem.symm hci) (by omega) (by omega) ?_ t s e hhead
      by_cases hemp : pySlice lines cstart i = []
      · rw [hemp]
        simp only [List.nil_append]
        by_cases hbig : ct (line ++ ['\n']) > B
        · exact Or.inr ⟨line, rfl, hbig⟩
        · left
          simp [sumTok]
          omega
      · left
        rw [sumTok_append]
        have hde : ¬ (sumTok ct (pySlice lines cstart i) + ct (line ++ ['\n']) > B ∧
            pySlice lines cstart i ≠ []) := hcond
        push_neg at hde
        have hle : ¬ (sumTok ct (pySlice lines cstart i) + ct (line ++ ['\n']) > B) :=
          fun hgt => hemp (hde hgt)
        omega

/-- Claim C2 (amended): the budget guarantee holds for the FIRST chunk: it
either fits the budget (`count_tokens` of its text for the single-chunk early
return, per-line token sum for a split first chunk), or is exactly one line
whose `count_tokens(line + '\n')` exceeds the budget.  Later chunks can
exceed the budget with several small lines, because overlap lines carried
over from the previous chunk are counted against the new chunk
(see `claim_C2_counterexample`). -/
theorem claim_C2_first_chunk_budget (ct : Str → Nat) (content filename : Str)
    (B osize : Nat) (t : Str) (s e : Nat)
    (h : (smart_chunk_content ct content filename B osize).head? =
      some (t, s, e)) :
    ct t ≤ B ∨ sumTok ct (pySlice (splitLines content) s (e + 1)) ≤ B ∨
      (s = e ∧ ∃ l, (splitLines content)[s]? = some l ∧ ct (l ++ ['\n']) > B) := by
  unfold smart_chunk_content at h
  split at h
  · next hsmall =>
    simp only [List.head?_cons, Option.some_inj, Prod.mk.injEq] at h
    left
    rw [← h.1]
    exact hsmall
  · right
    have h0 : sumTok ct ([] : List Str) = 0 := rfl
    refine chunkLoop_head_budget ct B osize
      (find_code_boundaries content (get_language_from_extension filename))
      (splitLines content)
      (splitLines content) 0 0 [] (by simp) (by simp [pySlice]) (by omega)
      (by omega) (Or.inl (by omega)) t s e ?_
    rw [h0]
    exact h

/-- Claim C2 counterexample: with the token counter instantiated to the
string length (a valid deterministic token estimator), budget 10 and overlap
budget 100, the second chunk of a four-line document has token count 14 > 10
yet consists of three lines, none of which exceeds the budget on its own:
overlap re-inclusion breaks the budget guarantee. -/
theorem claim_C2_counterexample :
    ∃ c ∈ smart_chunk_content List.length (strOf "aaaa\nbbbb\ncccc\ndddd")
        (strOf "x.quux") 10 100,
      ¬ (List.length c.1 ≤ 10 ∨
          ((splitLines c.1).length = 1 ∧
            ∃ l ∈ splitLines c.1, 10 < List.length l)) := by
  refine ⟨(strOf "aaaa\nbbbb\ncccc", 0, 2), by decide, by decide⟩

/-- Witness for the amended claim C2 at a concrete input. -/
theorem claim_C2_witness :
    (smart_chunk_content List.length (strOf "aaaa\nbbbb\ncccc\ndddd")
        (strOf "x.quux") 10 100).head? = some (strOf "aaaa\nbbbb", 0, 1) ∧
    (List.length (strOf "aaaa\nbbbb") ≤ 10 ∨
      sumTok List.length
        (pySlice (splitLines (strOf "aaaa\nbbbb\ncccc\ndddd")) 0 2) ≤ 10 ∨
      (0 = 1 ∧ ∃ l, (splitLines (strOf "aaaa\nbbbb\ncccc\ndddd"))[0]? = some l ∧
        List.length (l ++ ['\n']) > 10)) :=
  ⟨by decide,
   claim_C2_first_chunk_budget List.length (strOf "aaaa\nbbbb\ncccc\ndddd")
     (strOf "x.quux") 10 100 (strOf "aaaa\nbbbb") 0 1 (by decide)⟩

/-! ## Claim C3: boundary finding for unrecognized languages -/

/-- Claim C3 counterexample: `'go'` is not one of the recognized languages
(`python`, `javascript`, `typescript`, `java`, `cpp`), yet
`find_code_boundaries` returns a non-empty boundary list for it, because the
dictionary lookup falls back to the Python patterns instead of an empty
pattern list. -/
theorem claim_C3_counterexample :
    patternsFor (strLower (strOf "go")) = none ∧
    find_code_boundaries (strOf "def f(x):") (strOf "go") = [(0, 0)] :=
  ⟨rfl, by decide⟩

/-- Claim C3 (amended): for every content string and every language tag that
is not a recognized language, `find_code_boundaries` behaves exactly as for
`'python'` (the table lookup defaults to the Python patterns); in particular
it always returns (total function, never fails), but the result need not be
empty. -/
theorem claim_C3_unrecognized_falls_back_to_python (content language : Str)
    (h : patternsFor (strLower language) = none) :
    find_code_boundaries content language =
      find_code_boundaries content (strOf "python") := by
  unfold find_code_boundaries
  rw [h]
  have hp : patternsFor (strLower (strOf "python")) = some pythonPatterns := rfl
  rw [hp]
  rfl

/-- Witness for the amended claim C3 at language `'go'`. -/
theorem claim_C3_witness :
    find_code_boundaries (strOf "def f(x):\nclass C:") (strOf "go") =
      find_code_boundaries (strOf "def f(x):\nclass C:") (strOf "python") :=
  claim_C3_unrecognized_falls_back_to_python
    (strOf "def f(x):\nclass C:") (strOf "go") rfl

/-! ## Claims C4, C5, C10: analyzer short-circuit and caching -/

theorem cacheLookup_insert (c : Cache) (k : CacheKey) (v : AnalysisResult) :
    cacheLookup (cacheInsert c k v) k = some v := by
  simp [cacheLookup, cacheInsert, List.find?_cons_of_pos]

/-- After any `analyze` call, the produced result is stored in the returned
cache under the request's fingerprint. -/
theorem analyze_caches_result (oracle : Str → Option Str) (ct : Str → Nat)
    (cl gl : Nat) (cache : Cache) (req : AnalysisRequest) :
    cacheLookup (analyze oracle ct cl gl cache req).2.1
        (generate_cache_key req) =
      some (analyze oracle ct cl gl cache req).1 := by
  unfold analyze
  cases h : cacheLookup cache (generate_cache_key req) with
  | some r => simp [h]
  | none =>
    simp only [h]
    split
    · simp [cacheLookup_insert]
    · simp [cacheLookup_insert]

/-- A second `analyze` call whose request has the same fingerprint is a cache
hit: it returns the first call's result, leaves the cache unchanged and
issues no inference calls. -/
theorem analyze_second_call (oracle : Str → Option Str) (ct : Str → Nat)
    (cl gl : Nat) (cache : Cache) (req req' : AnalysisRequest)
    (hk : generate_cache_key req' = generate_cache_key req) :
    analyze oracle ct cl gl (analyze oracle ct cl gl cache req).2.1 req' =
      ((analyze oracle ct cl gl cache req).1,
       (analyze oracle ct cl gl cache req).2.1, []) := by
  have h := analyze_caches_result oracle ct cl gl cache req
  set p := analyze oracle ct cl gl cache req with hp
  simp only [analyze]
  rw [hk, h]

/-- Claim C5: calling `analyze` twice with the identical request returns the
identical cached `AnalysisResult` the second time, leaves the cache
unchanged and issues no new inference calls (the trace of prompts sent to
the gateway by the second call is empty).  The entry inserted by the first
call has not expired in this model, matching the claim's within-TTL
hypothesis. -/
theorem claim_C5_idempotent_caching (oracle : Str → Option Str)
    (ct : Str → Nat) (cl gl : Nat) (cache : Cache) (req : AnalysisRequest) :
    analyze oracle ct cl gl (analyze oracle ct cl gl cache req).2.1 req =
      ((analyze oracle ct cl gl cache req).1,
       (analyze oracle ct cl gl cache req).2.1, []) :=
  analyze_second_call oracle ct cl gl cache req req rfl

/-- Claim C10: the cache fingerprint reads only the query, the content and
the chunking strategy: two requests differing only in `context_metadata`
(including the `'filename'` key read by the code-aware chunking path) have
the same fingerprint, and the second `analyze` call returns the first's
cached result without any inference call. -/
theorem claim_C10_metadata_ignored_by_fingerprint (oracle : Str → Option Str)
    (ct : Str → Nat) (cl gl : Nat) (cache : Cache) (req : AnalysisRequest)
    (md : List (Str × Str)) :
    generate_cache_key { req with context_metadata := md } =
      generate_cache_key req ∧
    analyze oracle ct cl gl (analyze oracle ct cl gl cache req).2.1
        { req with context_metadata := md } =
      ((analyze oracle ct cl gl cache req).1,
       (analyze oracle ct cl gl cache req).2.1, []) :=
  ⟨rfl, analyze_second_call oracle ct cl gl cache req _ rfl⟩

/-- Claim C4: when the content's token count does not exceed the Claude
limit (and the request is not already cached), `analyze` issues no inference
call and returns a result with `used_gemini = false`, `chunks_processed = 0`
and an absent response. -/
theorem claim_C4_small_content_short_circuit (oracle : Str → Option Str)
    (ct : Str → Nat) (cl gl : Nat) (cache : Cache) (req : AnalysisRequest)
    (hmiss : cacheLookup cache (generate_cache_key req) = none)
    (hsmall : ct req.content ≤ cl) :
    analyze oracle ct cl gl cache req =
      (⟨req.query, req.content, ct req.content, 0, false, none⟩,
       cacheInsert cache (generate_cache_key req)
         ⟨req.query, req.content, ct req.content, 0, false, none⟩, []) := by
  simp only [analyze]
  rw [hmiss]
  have hng : needs_large_context_processing ct cl req.content = false := by
    simp [needs_large_context_processing]
    omega
  simp [hng]

/-- Witness for claim C4 at a concrete input. -/
theorem claim_C4_witness :
    analyze (fun _ => none) List.length 100 5000 []
        ⟨strOf "q", strOf "hello", .code_aware, []⟩ =
      (⟨strOf "q", strOf "hello", 5, 0, false, none⟩,
       [((strOf "q", strOf "hello", strOf "code_aware"),
         ⟨strOf "q", strOf "hello", 5, 0, false, none⟩)], []) :=
  claim_C4_small_content_short_circuit (fun _ => none) List.length 100 5000 []
    ⟨strOf "q", strOf "hello", .code_aware, []⟩ rfl (by decide)

/-! ## Claim C6: partial chunk failures in the multi-chunk path -/

/-- Mapping with `filterMap` over optional responses equals mapping over the successful
entries only, with each entry keeping its original label index. -/
theorem filterMap_opt_responses (f : Nat → Str → Str) :
    ∀ l : List (Nat × Option Str),
      l.filterMap (fun p => p.2.map (f p.1)) =
        (l.filter (fun p => p.2.isSome)).map (fun p => f p.1 (p.2.getD []))
  | [] => rfl
  | (i, none) :: rest => by
    simpa using filterMap_opt_responses f rest
  | (i, some t) :: rest => by
    simpa using filterMap_opt_responses f rest

/-- The aggregated findings string joins exactly the successful chunk
responses, each labeled `Part {original chunk index + 1}`. -/
theorem findingsOf_filter (responses : List (Option Str)) :
    findingsOf responses =
      List.intercalate (strOf "\n\n")
        ((responses.enum.filter (fun p => p.2.isSome)).map
          (fun p => partLabel (p.1 + 1) ++ p.2.getD [])) := by
  unfold findingsOf
  rw [filterMap_opt_responses (fun i t => partLabel (i + 1) ++ t) responses.enum]

/-- Claim C6: in the multi-chunk path (at least two chunks), for every oracle
behaviour (any subset of per-chunk calls may fail and return an absent
result), `analyze` still runs the synthesis call after all per-chunk calls,
returns `chunks_processed` equal to the total chunk count, and aggregates
only the successful findings, labeled by each response's original chunk
index; no failure escapes (`analyze` is total and returns a result). -/
theorem claim_C6_partial_chunk_failures (oracle : Str → Option Str)
    (ct : Str → Nat) (cl gl : Nat) (cache : Cache) (req : AnalysisRequest)
    (hmiss : cacheLookup cache (generate_cache_key req) = none)
    (hlarge : ct req.content > cl)
    (hmulti : 2 ≤ (analysis_chunks ct gl req).length) :
    (analyze oracle ct cl gl cache req).1.chunks_processed =
        (analysis_chunks ct gl req).length ∧
    (analyze oracle ct cl gl cache req).2.2 =
        chunkPrompts (analysis_chunks ct gl req) req.query ++
          [aggregationPrompt (analysis_chunks ct gl req).length req.query
            (findingsOf ((chunkPrompts (analysis_chunks ct gl req)
              req.query).map oracle))] ∧
    (analyze oracle ct cl gl cache req).1.response =
        some ((oracle (aggregationPrompt (analysis_chunks ct gl req).length
          req.query (findingsOf ((chunkPrompts (analysis_chunks ct gl req)
            req.query).map oracle)))).getD (strOf "No response from Gemini")) ∧
    findingsOf ((chunkPrompts (analysis_chunks ct gl req) req.query).map oracle) =
        List.intercalate (strOf "\n\n")
          ((((chunkPrompts (analysis_chunks ct gl req) req.query).map
              oracle).enum.filter (fun p => p.2.isSome)).map
            (fun p => partLabel (p.1 + 1) ++ p.2.getD [])) := by
  have hng : needs_large_context_processing ct cl req.content = true := by
    simp [needs_large_context_processing]
    omega
  obtain ⟨a, b, l, hchunks⟩ :
      ∃ a b l, analysis_chunks ct gl req = a :: b :: l := by
    rcases hcs : analysis_chunks ct gl req with _ | ⟨a, tl⟩
    · rw [hcs] at hmulti
      simp at hmulti
    · rcases tl with _ | ⟨b, l⟩
      · rw [hcs] at hmulti
        simp at hmulti
      · exact ⟨a, b, l, rfl⟩
  refine ⟨?_, ?_, ?_, findingsOf_filter _⟩ <;>
    simp only [analyze, hmiss, hng, if_true, hchunks,
      process_chunks_with_gemini]

/-- Witness for claim C6: a three-chunk request whose per-chunk calls all
fail still reports `chunks_processed` equal to the chunk count. -/
theorem claim_C6_witness :
    (analyze (fun _ => none) List.length 10 1006 []
        ⟨strOf "q", strOf "aaaa\nbbbb\ncccc", .simple, []⟩).1.chunks_processed = 3 := by
  have h := claim_C6_partial_chunk_failures (fun _ => none) List.length 10 1006
    [] ⟨strOf "q", strOf "aaaa\nbbbb\ncccc", .simple, []⟩ rfl (by decide)
    (by decide)
  rw [h.1]
  decide

/-! ## Claim C7: retry policy of `gemini_text_to_text` -/

/-- When every attempt in range fails transiently, the loop exhausts all
attempts and returns an absent result instead of raising. -/
theorem geminiRetryLoop_all_transient (att : Nat → GenOutcome) :
    ∀ (remaining attempt : Nat),
      (∀ i, attempt ≤ i → i < attempt + remaining → isTransient (att i) = true) →
      geminiRetryLoop att remaining attempt = (.ok none, attempt + remaining)
  | 0, attempt, _ => by simp [geminiRetryLoop]
  | remaining + 1, attempt, h => by
    have h0 := h attempt (le_refl _) (by omega)
    unfold geminiRetryLoop
    cases hatt : att attempt with
    | success t => rw [hatt] at h0; simp [isTransient] at h0
    | clientError e => rw [hatt] at h0; simp [isTransient] at h0
    | serverError b =>
      have hr := geminiRetryLoop_all_transient att remaining (attempt + 1)
        (fun i h1 h2 => h i (by omega) (by omega))
      rw [hr]
      ring_nf
    | unexpectedError =>
      have hr := geminiRetryLoop_all_transient att remaining (attempt + 1)
        (fun i h1 h2 => h i (by omega) (by omega))
      rw [hr]
      ring_nf

/-- A `ClientError` at attempt `j` (after only transient failures) is
propagated immediately: the loop stops after attempt `j` with the error. -/
theorem geminiRetryLoop_client_error (att : Nat → GenOutcome) (e : Nat) :
    ∀ (remaining attempt j : Nat),
      attempt ≤ j → j < attempt + remaining →
      (∀ i, attempt ≤ i → i < j → isTransient (att i) = true) →
      att j = .clientError e →
      geminiRetryLoop att remaining attempt = (.error e, j + 1)
  | 0, attempt, j, h1, h2, _, _ => by omega
  | remaining + 1, attempt, j, h1, h2, htr, hj => by
    unfold geminiRetryLoop
    by_cases hja : j = attempt
    · subst hja
      rw [hj]
    · have h0 := htr attempt (le_refl _) (by omega)
      cases hatt : att attempt with
      | success t => rw [hatt] at h0; simp [isTransient] at h0
      | clientError e2 => rw [hatt] at h0; simp [isTransient] at h0
      | serverError b =>
        exact geminiRetryLoop_client_error att e remaining (attempt + 1) j
          (by omega) (by omega) (fun i hi1 hi2 => htr i (by omega) hi2) hj
      | unexpectedError =>
        exact geminiRetryLoop_client_error att e remaining (attempt + 1) j
          (by omega) (by omega) (fun i hi1 hi2 => htr i (by omega) hi2) hj

/-- Claim C7: `gemini_text_to_text` retries transient (server-side or
unexpected) errors up to `max_retries` attempts (default 3) and returns an
absent result (`None`) on exhaustion instead of raising; a `ClientError` is
propagated immediately with no further attempt. -/
theorem claim_C7_retry_policy (att : Nat → GenOutcome) (max_retries : Nat) :
    ((∀ i, i < max_retries → isTransient (att i) = true) →
      gemini_text_to_text att max_retries = (.ok none, max_retries)) ∧
    (∀ j e, j < max_retries →
      (∀ i, i < j → isTransient (att i) = true) →
      att j = .clientError e →
      gemini_text_to_text att max_retries = (.error e, j + 1)) := by
  constructor
  · intro h
    have hr := geminiRetryLoop_all_transient att max_retries 0
      (fun i h1 h2 => h i (by omega))
    simpa [gemini_text_to_text] using hr
  · intro j e hj htr hcl
    exact geminiRetryLoop_client_error att e max_retries 0 j (by omega)
      (by omega) (fun i h1 h2 => htr i h2) hcl

/-- Witness for claim C7: three transient failures exhaust the default three
attempts and yield an absent result; a client error at the second attempt is
propagated after exactly two attempts. -/
theorem claim_C7_witness :
    gemini_text_to_text (fun _ => .serverError true) 3 = (.ok none, 3) ∧
    gemini_text_to_text
        (fun i => if i = 0 then .serverError false else .clientError 7) 3 =
      (.error 7, 2) :=
  ⟨(claim_C7_retry_policy (fun _ => .serverError true) 3).1
      (fun i _ => by simp [isTransient]),
   (claim_C7_retry_policy
      (fun i => if i = 0 then .serverError false else .clientError 7) 3).2 1 7
      (by omega) (fun i hi => by interval_cases i; simp [isTransient])
      (by simp)⟩

/-! ## Claim C9: `_simple_chunk_by_size` partitions the lines exactly -/

/-- Start line of the first chunk, if any. -/
def headStart : List Chunk → Option Nat
  | [] => none
  | c :: _ => some c.2.1

/-- End line of the last chunk, if any. -/
def lastEnd : List Chunk → Option Nat
  | [] => none
  | [c] => some c.2.2
  | _ :: rest => lastEnd rest

/-- Consecutive chunks are adjacent: each chunk starts exactly one line
after the previous chunk ends (no gap, no overlap). -/
def chainedB : List Chunk → Bool
  | [] => true
  | [_] => true
  | a :: b :: rest => decide (b.2.1 = a.2.2 + 1) && chainedB (b :: rest)

theorem simpleLoop_partition (ct : Str → Nat) (limit : Nat) (lines : List Str) :
    ∀ (rem : List Str) (i sstart : Nat) (cur : List Str) (ctoks : Nat),
      rem = lines.drop i → cur = pySlice lines sstart i → i ≤ lines.length →
      sstart ≤ i → (sstart < i ∨ i < lines.length) →
      simpleLoop ct limit lines.length rem i sstart cur ctoks ≠ [] ∧
      headStart (simpleLoop ct limit lines.length rem i sstart cur ctoks) =
        some sstart ∧
      chainedB (simpleLoop ct limit lines.length rem i sstart cur ctoks) = true ∧
      lastEnd (simpleLoop ct limit lines.length rem i sstart cur ctoks) =
        some (lines.length - 1) ∧
      (∀ c ∈ simpleLoop ct limit lines.length rem i sstart cur ctoks,
        c.2.1 ≤ c.2.2) := by
  intro rem
  induction rem with
  | nil =>
    intro i sstart cur ctoks hrem hcur hi hsi hdisj
    subst hcur
    have hin : i = lines.length := by
      have hle : lines.length ≤ i := List.drop_eq_nil_iff.mp hrem.symm
      omega
    have hsl : sstart < i := by
      rcases hdisj with h | h
      · exact h
      · omega
    have hne : pySlice lines sstart i ≠ [] := pySlice_ne_nil_of hsl (by omega)
    simp only [simpleLoop, if_neg (by simpa using hne)]
    refine ⟨by simp, rfl, rfl, rfl, ?_⟩
    intro c hc
    simp only [List.mem_singleton] at hc
    subst hc
    simp only
    omega
  | cons line rest ih =>
    intro i sstart cur ctoks hrem hcur hi hsi hdisj
    subst hcur
    have hlt : i < lines.length := by
      by_contra hcon
      have hdm : lines.drop i = [] := List.drop_eq_nil_iff.mpr (by omega)
      rw [hdm] at hrem
      cases hrem
    have hrest : rest = lines.drop (i + 1) := by
      have ht : (lines.drop i).tail = lines.drop (i + 1) := List.tail_drop lines i
      rw [← hrem] at ht
      exact ht
    have hlineslice : [line] = pySlice lines i (i + 1) := by
      have := pySlice_snoc (a := i) hrem.symm (le_refl i)
      rw [pySlice_zero] at this
      simpa using this
    simp only [simpleLoop]
    split
    · next hcond =>
      have hsl : sstart < i := (pySlice_bounds_of_ne_nil hcond.2).1
      obtain ⟨hne, hhead, hchain, hlast, hranges⟩ :=
        ih (i + 1) i [line] (ct (line ++ ['\n'])) hrest hlineslice
          (by omega) (by omega) (by omega)
      cases hcs : simpleLoop ct limit lines.length rest (i + 1) i [line]
          (ct (line ++ ['\n'])) with
      | nil => exact absurd hcs hne
      | cons c0 cs =>
        rw [hcs] at hhead hchain hlast hranges
        refine ⟨by simp, rfl, ?_, ?_, ?_⟩
        · simp only [chainedB, Bool.and_eq_true, decide_eq_true_eq]
          constructor
          · have hc0 : c0.2.1 = i := by
              simpa [headStart] using hhead
            simp only [hc0]
            omega
          · exact hchain
        · simpa [lastEnd] using hlast
        · intro c hc
          rcases List.mem_cons.mp hc with hc | hc
          · subst hc
            simp only
            omega
          · exact hranges c hc
    · next hcond =>
      exact ih (i + 1) sstart (pySlice lines sstart i ++ [line]) _ hrest
        (pySlice_snoc hrem.symm hsi) (by omega) (by omega) (by omega)

/-- Claim C9: for every content string and token counter, the simple
chunking path produces a non-empty chunk sequence that exactly partitions
the line indices: the first chunk starts at line 0, every later chunk starts
exactly one line after its predecessor ends (no overlap, no gap), the last
chunk ends at the last line, and every chunk has `start_line ≤ end_line`. -/
theorem claim_C9_simple_chunk_partition (ct : Str → Nat) (gemini_limit : Nat)
    (content : Str) :
    simple_chunk_by_size ct gemini_limit content ≠ [] ∧
    headStart (simple_chunk_by_size ct gemini_limit content) = some 0 ∧
    chainedB (simple_chunk_by_size ct gemini_limit content) = true ∧
    lastEnd (simple_chunk_by_size ct gemini_limit content) =
      some ((splitLines content).length - 1) ∧
    (∀ c ∈ simple_chunk_by_size ct gemini_limit content, c.2.1 ≤ c.2.2) := by
  have hpos : 0 < (splitLines content).length :=
    List.length_pos.mpr (splitLines_ne_nil content)
  unfold simple_chunk_by_size
  exact simpleLoop_partition ct (gemini_limit - 1000) (splitLines content)
    (splitLines content) 0 0 [] 0 (by simp) (by simp [pySlice]) (by omega)
    (by omega) (Or.inr hpos)

/-- Witness for claim C9 at a concrete input. -/
theorem claim_C9_witness :
    chainedB (simple_chunk_by_size List.length 1006 (strOf "aaaa\nbbbb\ncccc")) =
      true ∧
    ((strOf "aaaa", 0, 0) : Chunk).2.1 ≤ ((strOf "aaaa", 0, 0) : Chunk).2.2 :=
  ⟨(claim_C9_simple_chunk_partition List.length 1006
      (strOf "aaaa\nbbbb\ncccc")).2.2.1,
   (claim_C9_simple_chunk_partition List.length 1006
      (strOf "aaaa\nbbbb\ncccc")).2.2.2.2 (strOf "aaaa", 0, 0) (by decide)⟩

/-! ## Claim C8: rate limiting across sliding windows -/

/-- Claim C8 counterexample: with limit 3 and window 60, six calls arriving
at times 0, 58, 59, 61, 62, 63 all pass `check_rate_limit` without blocking
(the counter window resets at time 61), so the sliding window `[55, 115)` of
duration 60 contains 5 initiated calls, exceeding limit + 1 = 4. -/
theorem claim_C8_counterexample :
    countWindow 60 55 (rlTrace 60 3 ⟨0, 0⟩ 0 [0, 58, 59, 61, 62, 63]) = 5 ∧
    3 + 1 < 5 := by
  constructor
  · decide
  · omega

/-- Behaviour of `check_rate_limit` when the window has elapsed: reset, then count the
call (no blocking; the post-reset counter 0 is below a positive limit). -/
theorem check_rate_limit_reset (W : Int) (L : Nat) (count : Nat) (ws ta : Int)
    (h : ta - ws ≥ W) (hL : 1 ≤ L) :
    check_rate_limit W L ⟨count, ws⟩ ta = (⟨1, ta⟩, ta) := by
  simp only [check_rate_limit, if_pos h]
  rw [if_neg (show ¬ ((0 : Nat) ≥ L) by omega)]

/-- Behaviour of `check_rate_limit` when the window has not elapsed and the counter is
full: sleep until the window end `window_start + W`, then proceed; the stale
counter read before the sleep makes the stored counter `count + 1`. -/
theorem check_rate_limit_sleep (W : Int) (L : Nat) (count : Nat) (ws ta : Int)
    (h1 : ¬ (ta - ws ≥ W)) (h2 : count ≥ L) :
    check_rate_limit W L ⟨count, ws⟩ ta = (⟨count + 1, ws + W⟩, ws + W) := by
  simp only [check_rate_limit, if_neg h1]
  rw [if_pos h2]
  have hmax : max (W - (ta - ws)) 0 = W - (ta - ws) :=
    max_eq_left (by omega)
  rw [hmax]
  have hxy : ta + (W - (ta - ws)) = ws + W := by ring
  rw [hxy]

/-- Behaviour of `check_rate_limit` when the window has not elapsed and the counter is
below the limit: count the call and proceed immediately. -/
theorem check_rate_limit_normal (W : Int) (L : Nat) (count : Nat) (ws ta : Int)
    (h1 : ¬ (ta - ws ≥ W)) (h2 : count < L) :
    check_rate_limit W L ⟨count, ws⟩ ta = (⟨count + 1, ws⟩, ta) := by
  simp only [check_rate_limit, if_neg h1]
  rw [if_neg (show ¬ (count ≥ L) by omega)]

theorem countWindow_cons (W a x : Int) (xs : List Int) :
    countWindow W a (x :: xs) =
      (if a ≤ x ∧ x < a + W then 1 else 0) + countWindow W a xs := by
  simp only [countWindow, List.filter_cons]
  by_cases h : a ≤ x ∧ x < a + W
  · simp [h, Nat.add_comm]
  · simp [h]

/-- Upper bound on how many future initiations can fall in the sliding
window `[a, a + W)` from a limiter state with counter `count` and window
start `ws`: the current tracker window can still admit `L - count` calls,
and at most one (two, if the window lies beyond the current tracker window)
further tracker window overlaps the sliding window, each admitting at most
`L` calls. -/
def rlBound (W : Int) (L count : Nat) (ws a : Int) : Nat :=
  (if a < ws + W ∧ ws < a + W then L - count else 0) +
  (if a ≤ ws then 0 else if a ≤ ws + W then L else 2 * L)

theorem rlTrace_bound (W : Int) (L : Nat) (hW : 1 ≤ W) (hL : 1 ≤ L) :
    ∀ (ts : List Int) (count : Nat) (ws lf a : Int), ws ≤ lf →
      countWindow W a (rlTrace W L ⟨count, ws⟩ lf ts) ≤ rlBound W L count ws a
  | [], count, ws, lf, a, hws => by simp [rlTrace, countWindow]
  | t :: ts, count, ws, lf, a, hws => by
    simp only [rlTrace]
    set ta := max t lf with hta
    have hta1 : lf ≤ ta := le_max_right t lf
    have htaws : ws ≤ ta := le_trans hws hta1
    by_cases hreset : ta - ws ≥ W
    · simp only [check_rate_limit_reset W L count ws ta hreset hL]
      rw [countWindow_cons]
      have hrec := rlTrace_bound W L hW hL ts 1 ta ta a (le_refl ta)
      have harith : (if a ≤ ta ∧ ta < a + W then 1 else 0) +
          rlBound W L 1 ta a ≤ rlBound W L count ws a := by
        unfold rlBound
        split_ifs <;> omega
      exact le_trans (Nat.add_le_add_left hrec _) harith
    · by_cases hfull : count ≥ L
      · simp only [check_rate_limit_sleep W L count ws ta hreset hfull]
        rw [countWindow_cons]
        have hrec := rlTrace_bound W L hW hL ts (count + 1) (ws + W) (ws + W) a
          (le_refl _)
        have harith : (if a ≤ ws + W ∧ ws + W < a + W then 1 else 0) +
            rlBound W L (count + 1) (ws + W) a ≤ rlBound W L count ws a := by
          unfold rlBound
          split_ifs <;> omega
        exact le_trans (Nat.add_le_add_left hrec _) harith
      · simp only [check_rate_limit_normal W L count ws ta hreset (by omega)]
        rw [countWindow_cons]
        have hrec := rlTrace_bound W L hW hL ts (count + 1) ws ta a htaws
        have harith : (if a ≤ ta ∧ ta < a + W then 1 else 0) +
            rlBound W L (count + 1) ws a ≤ rlBound W L count ws a := by
          unfold rlBound
          split_ifs <;> omega
        exact le_trans (Nat.add_le_add_left hrec _) harith

/-- Claim C8 (amended): the limiter enforces a fixed-window discipline, not
a sliding-window one: from the initial limiter state, any sliding window of
duration W contains at most `2 * limit` initiated calls (up to one full
tracker window's quota on each side of a reset boundary); the claimed bound
`limit + 1` does not hold (see `claim_C8_counterexample`). -/
theorem claim_C8_sliding_window_two_limit_bound (W : Int) (L : Nat)
    (arrivals : List Int) (a : Int) (hW : 1 ≤ W) (hL : 1 ≤ L) :
    countWindow W a (rlTrace W L ⟨0, 0⟩ 0 arrivals) ≤ 2 * L := by
  have h := rlTrace_bound W L hW hL arrivals 0 0 0 a (le_refl 0)
  refine le_trans h ?_
  unfold rlBound
  split_ifs <;> omega

/-- Witness for the amended claim C8 at the counterexample trace. -/
theorem claim_C8_witness :
    countWindow 60 55 (rlTrace 60 3 ⟨0, 0⟩ 0 [0, 58, 59, 61, 62, 63]) ≤ 2 * 3 :=
  claim_C8_sliding_window_two_limit_bound 60 3 [0, 58, 59, 61, 62, 63] 55
    (by omega) (by omega)
